import Mathlib

/-!
Verification of the pkg-reader Debian control-file parsing core (src/app.js).

The JavaScript source works on strings; here a string is embedded as a
`List Char` (for a string literal `s`, the corresponding list is `s.data`).
JavaScript values that may be `undefined` (the result of a `for` loop that
falls through without returning, as in `getNameFrom`) are embedded as
`Option (List Char)`, with `none` standing for `undefined`. `String.split`
with a string separator is embedded by the recursive splitters below, which
scan left to right for non-overlapping separator occurrences, exactly as the
JavaScript method does (keeping empty pieces).
-/

namespace PkgReader

/-- Character class `[ |\t]` used by the three field regexes of app.js
(`packageNameParser`, `descriptionSummaryParser`, `dependencyParser`) and by
`startsWithWhitespaceParser`: inside a regex character class the `|` is a
literal pipe, so the class matches a space, a pipe, or a tab. -/
def isFieldWS (c : Char) : Bool :=
  c == ' ' || c == '|' || c == '\t'

/-- Whitespace characters removed by JavaScript `String.prototype.trim`
(ASCII subset; the inputs of this development contain no other whitespace). -/
def isTrimWS (c : Char) : Bool :=
  c == ' ' || c == '\t' || c == '\n' || c == '\r' || c == '\x0b' || c == '\x0c'

/-- Embedding of `textData.split('\n')` (`splitIntoLines` in app.js). -/
def splitLinesL : List Char → List (List Char)
  | [] => [[]]
  | '\n' :: rest => [] :: splitLinesL rest
  | c :: rest =>
    match splitLinesL rest with
    | h :: t => (c :: h) :: t
    | [] => [[c]]

/-- Embedding of `splitIntoParagraphs` in app.js, which splits `textData`
on the two-character separator of two consecutive line feeds: left-to-right,
non-overlapping occurrences. -/
def splitParasL : List Char → List (List Char)
  | '\n' :: '\n' :: rest => [] :: splitParasL rest
  | c :: rest =>
    match splitParasL rest with
    | h :: t => (c :: h) :: t
    | [] => [[c]]
  | [] => [[]]

/-- Embedding of `s.split(' ')`: split on single spaces, keeping empty
pieces (JavaScript `split` does not discard them). -/
def splitSpacesL : List Char → List (List Char)
  | [] => [[]]
  | c :: rest =>
    if c = ' ' then
      [] :: splitSpacesL rest
    else
      match splitSpacesL rest with
      | h :: t => (c :: h) :: t
      | [] => [[c]]

/-- Embedding of `line.match(/^Pfx:[ |\t]*(.+)[ |\t]*$/)`, returning the
first capture group. The regex engine semantics: after the literal field
name, `[ |\t]*` greedily eats the maximal run of class characters; `(.+)`
then greedily captures the whole remainder of the line (so the trailing
`[ |\t]*` always matches the empty string and trailing whitespace stays in
the capture). If the remainder after the maximal run is empty but the run
is non-empty, the engine backtracks one character and the capture is the
last character of the run. If nothing follows the field name, there is no
match. -/
def matchField (pfx line : List Char) : Option (List Char) :=
  if line.take pfx.length = pfx then
    let after := line.drop pfx.length
    let stripped := after.dropWhile isFieldWS
    if stripped = [] then
      match after.getLast? with
      | some c => some [c]
      | none => none
    else
      some stripped
  else
    none

/-- Field name (with colon) of `packageNameParser`. -/
def pkgPfx : List Char := "Package:".data

/-- Field name (with colon) of `descriptionSummaryParser`. -/
def descPfx : List Char := "Description:".data

/-- Field name (with colon) of `dependencyParser`. -/
def depPfx : List Char := "Depends:".data

/-- Embedding of `startsWithWhitespaceParser` (`/^[ |\t]+/`): the line
begins with at least one character of the class. -/
def startsWithWS (line : List Char) : Bool :=
  match line with
  | [] => false
  | c :: _ => isFieldWS c

/-- Embedding of `getNameFrom`: return the capture of the first line
matching `packageNameParser`; `none` (JS `undefined`) when no line matches. -/
def getNameFrom : List (List Char) → Option (List Char)
  | [] => none
  | line :: rest =>
    match matchField pkgPfx line with
    | some v => some v
    | none => getNameFrom rest

/-- Embedding of `getSummaryFrom`: capture of the first line matching
`descriptionSummaryParser`; `none` when no line matches. -/
def getSummaryFrom : List (List Char) → Option (List Char)
  | [] => none
  | line :: rest =>
    match matchField descPfx line with
    | some v => some v
    | none => getSummaryFrom rest

/-- Embedding of the regex-replace with `versionParser` (`/ \(.*?\)/g`):
repeatedly remove a space followed by an opening parenthesis and everything
up to (and including) the first closing parenthesis; if no closing
parenthesis follows, there is no match at this position and scanning
resumes at the next character. `afterClose` returns the suffix after the
first closing parenthesis. -/
def afterClose : List Char → Option (List Char)
  | [] => none
  | ')' :: rest => some rest
  | _ :: rest => afterClose rest

/-- Fuel-indexed worker for `stripVersions`; every step consumes at least
one character, so `l.length` fuel always suffices. -/
def stripVersionsGo : Nat → List Char → List Char
  | 0, l => l
  | _ + 1, [] => []
  | fuel + 1, ' ' :: '(' :: rest =>
    match afterClose rest with
    | some after => stripVersionsGo fuel after
    | none => ' ' :: stripVersionsGo fuel ('(' :: rest)
  | fuel + 1, c :: rest => c :: stripVersionsGo fuel rest

/-- Embedding of `dependencies.replace(versionParser, '')`. -/
def stripVersions (l : List Char) : List Char :=
  stripVersionsGo l.length l

/-- Embedding of `.replace(commasParser, '')` (`/,/g`): delete every comma. -/
def removeCommas (l : List Char) : List Char :=
  l.filter (fun c => c ≠ ',')

/-- Embedding of `parseDependencyString`: first strip version constraints,
then remove commas. -/
def parseDependencyString (dependencies : List Char) : List Char :=
  removeCommas (stripVersions dependencies)

/-- Embedding of `getDependenciesFrom`: parse the capture of the first line
matching `dependencyParser`; the empty string (here the empty list) when no
line matches. -/
def getDependenciesFrom : List (List Char) → List Char
  | [] => []
  | line :: rest =>
    match matchField depPfx line with
    | some deps => parseDependencyString deps
    | none => getDependenciesFrom rest

/-- Embedding of `isDependentOn`:
`getDependenciesFrom(packageInfo).split(' ').includes(nameToFind)`. -/
def isDependentOn (nameToFind : List Char) (packageInfo : List (List Char)) : Bool :=
  (splitSpacesL (getDependenciesFrom packageInfo)).contains nameToFind

/-- Result element of `findDependenciesFor`: `{name, found}`. -/
structure DependencyObject where
  name : List Char
  found : Bool
deriving DecidableEq

/-- Embedding of `[...new Set(list)]`: keep the first occurrence of each
element, in order; `seen` is the set of elements already emitted. -/
def dedupKeep (seen : List (List Char)) : List (List Char) → List (List Char)
  | [] => []
  | x :: xs => if x ∈ seen then dedupKeep seen xs else x :: dedupKeep (x :: seen) xs

/-- Embedding of `findDependenciesFor`: for a falsy (empty) dependency
string the result is empty; otherwise split on spaces, deduplicate keeping
first occurrences, and map each token to `{name, found}` where `found`
tests membership (JS `includes`) in the collected name list. -/
def findDependenciesFor (dependenciesAsString : List Char)
    (allPackageNames : List (Option (List Char))) : List DependencyObject :=
  if dependenciesAsString = [] then
    []
  else
    let dependencyList := splitSpacesL dependenciesAsString
    let uniqueDependencies := dedupKeep [] dependencyList
    uniqueDependencies.map fun dependency =>
      { name := dependency
        found := (allPackageNames.contains (some dependency)) }

/-- Two-state scan of `getDescriptionFrom`: while `save` is set, a line
beginning with class whitespace is captured verbatim; any other line resets
`save` and re-arms it when the line matches `descriptionSummaryParser`. -/
def descScan (save : Bool) : List (List Char) → List (List Char)
  | [] => []
  | line :: rest =>
    if startsWithWS line && save then
      line :: descScan save rest
    else
      descScan (matchField descPfx line).isSome rest

/-- Embedding of JavaScript `trim`: drop `isTrimWS` characters from both
ends. -/
def jsTrim (l : List Char) : List Char :=
  ((l.dropWhile isTrimWS).reverse.dropWhile isTrimWS).reverse

/-- Embedding of `joinDescriptionLines`: join the captured lines with the
empty separator, then trim. -/
def joinDescriptionLines (description : List (List Char)) : List Char :=
  jsTrim description.flatten

/-- Embedding of `getDescriptionFrom`. -/
def getDescriptionFrom (packageInfo : List (List Char)) : List Char :=
  joinDescriptionLines (descScan false packageInfo)

/-- Mutable state of the `for` loop in `getInfoFor`. -/
structure ScanState where
  summary : Option (List Char)
  description : List Char
  dependenciesTemp : List Char
  dependents : List (Option (List Char))
  allPackageNames : List (Option (List Char))
deriving DecidableEq

/-- Initial loop state of `getInfoFor`: the three field accumulators start
as the empty string and both lists start empty. -/
def initState : ScanState :=
  { summary := some []
    description := []
    dependenciesTemp := []
    dependents := []
    allPackageNames := [] }

/-- One iteration of the `for (const package of allPackages)` loop of
`getInfoFor`, in source order: push the stanza's name, then either record a
dependent (stanza of a different name whose token list contains the query),
skip, or (for a matching name) overwrite summary, description and the raw
dependency string. -/
def scanStep (packageName : List Char) (st : ScanState) (package : List Char) : ScanState :=
  let lines := splitLinesL package
  let currentName := getNameFrom lines
  let st1 : ScanState := { st with allPackageNames := st.allPackageNames ++ [currentName] }
  if currentName ≠ some packageName ∧ isDependentOn packageName lines then
    { st1 with dependents := st1.dependents ++ [currentName] }
  else if currentName ≠ some packageName then
    st1
  else
    { st1 with
      summary := getSummaryFrom lines
      description := getDescriptionFrom lines
      dependenciesTemp := getDependenciesFrom lines }

/-- Result record of `getInfoFor` (the detail query). -/
structure PackageDetails where
  summary : Option (List Char)
  description : List Char
  depends : List DependencyObject
  dependents : List (Option (List Char))
deriving DecidableEq

/-- Embedding of `getInfoFor`, with the file contents passed explicitly
(the source reads them from a fixed path; the loader is outside this core). -/
def getInfoFor (fileText packageName : List Char) : PackageDetails :=
  let allPackages := splitParasL fileText
  let st := allPackages.foldl (scanStep packageName) initState
  { summary := st.summary
    description := st.description
    depends := findDependenciesFor st.dependenciesTemp st.allPackageNames
    dependents := st.dependents }

/-- Embedding of `getPackageNames`, with the file contents passed
explicitly: scan every line of the whole file and push each
`packageNameParser` capture. -/
def getPackageNames (fileText : List Char) : List (List Char) :=
  (splitLinesL fileText).foldl
    (fun names line =>
      match matchField pkgPfx line with
      | some v => names ++ [v]
      | none => names)
    []

/-- Extracted name of one stanza string. -/
def stanzaName (package : List Char) : Option (List Char) :=
  getNameFrom (splitLinesL package)

/-- Names of all stanzas of a file, in order (`allPackageNames` at the end
of the `getInfoFor` loop). -/
def allNamesOf (fileText : List Char) : List (Option (List Char)) :=
  (splitParasL fileText).map stanzaName

/-- Whether a stanza is recorded as a dependent of `packageName`: its
extracted name differs from the query and its flat dependency token list
contains the query. -/
def isDepStanza (packageName package : List Char) : Bool :=
  (!(stanzaName package == some packageName))
    && isDependentOn packageName (splitLinesL package)

/-- Declarative form of the dependents accumulated by `getInfoFor`. -/
def dependentsOf (fileText packageName : List Char) : List (Option (List Char)) :=
  ((splitParasL fileText).filter (isDepStanza packageName)).map stanzaName

/-- The raw dependency string captured for the query: the parsed `Depends`
value of the last stanza whose name equals the query (empty when none
matches), mirroring the overwriting loop of `getInfoFor`. -/
def targetDepsOf (fileText packageName : List Char) : List Char :=
  (splitParasL fileText).foldl
    (fun acc package =>
      if stanzaName package = some packageName then
        getDependenciesFrom (splitLinesL package)
      else acc)
    []

/-- The dependency token sequence of the query target: splitting the
captured raw dependency string on spaces, with the falsy-guard of
`findDependenciesFor` (an empty string yields no tokens at all). -/
def dependencyTokensOf (fileText packageName : List Char) : List (List Char) :=
  if targetDepsOf fileText packageName = [] then []
  else splitSpacesL (targetDepsOf fileText packageName)

/-- Whether a string begins with a space character. -/
def headIsSpace (s : List Char) : Bool :=
  match s with
  | [] => false
  | c :: _ => c == ' '

/-- Whether a string ends with a space character. -/
def endsWithSpace : List Char → Bool
  | [] => false
  | [c] => c == ' '
  | _ :: rest => endsWithSpace rest

/-- Whether a string contains two adjacent space characters. -/
def hasAdjSpaces : List Char → Bool
  | [] => false
  | [_] => false
  | c1 :: c2 :: rest => (c1 == ' ' && c2 == ' ') || hasAdjSpaces (c2 :: rest)

/-- Boundary condition under which splitting on single spaces produces an
empty token: the string is empty, begins with a space, ends with a space,
or contains two adjacent spaces. -/
def emptyTokenCond (s : List Char) : Bool :=
  s.isEmpty || headIsSpace s || endsWithSpace s || hasAdjSpaces s

/-- Rejoin a token sequence with single spaces (the inverse of
`splitSpacesL`). -/
def joinWithSpace : List (List Char) → List Char
  | [] => []
  | [t] => t
  | t :: ts => t ++ ' ' :: joinWithSpace ts

/-! ## Concrete example files -/

/-- The two-stanza example file of the specification's test scenario. -/
def specScenarioFile : List Char :=
  ("Package: alpha\nDescription: short alpha\n long alpha text\nDepends: beta (>= 1.0), gamma\n\nPackage: beta\nDescription: short beta").data

/-- First stanza of `specScenarioFile`. -/
def specStanzaAlpha : List Char :=
  ("Package: alpha\nDescription: short alpha\n long alpha text\nDepends: beta (>= 1.0), gamma").data

/-- Second stanza of `specScenarioFile`. -/
def specStanzaBeta : List Char :=
  ("Package: beta\nDescription: short beta").data

/-- A file with two stanzas named A around a stanza named B; the later A
stanza has no Depends line and shadows the earlier one. -/
def shadowedFile : List Char :=
  ("Package: A\nDepends: B\n\nPackage: B\n\nPackage: A").data

/-- First stanza of `shadowedFile`. -/
def shadowedStanzaA : List Char :=
  ("Package: A\nDepends: B").data

/-- A file whose only stanza's Depends value leaves two adjacent spaces
after comma removal. -/
def emptyTokFile : List Char :=
  ("Package: p\nDepends: a , b").data

/-- A file with two stanzas named dup and a dependent stanza between them. -/
def dupFile : List Char :=
  ("Package: dup\nDescription: first\nDepends: beta\n\nPackage: other\nDepends: dup\n\nPackage: dup\nDescription: second\nDepends: other").data

/-- First stanza of `dupFile`. -/
def dupStanza1 : List Char :=
  ("Package: dup\nDescription: first\nDepends: beta").data

/-- Second stanza of `dupFile`. -/
def dupStanza2 : List Char :=
  ("Package: other\nDepends: dup").data

/-- Third stanza of `dupFile`. -/
def dupStanza3 : List Char :=
  ("Package: dup\nDescription: second\nDepends: other").data

/-- A file whose first stanza has no Package line but depends on foo. -/
def namelessFile : List Char :=
  ("Depends: foo\n\nPackage: foo").data

/-- First stanza of `namelessFile`. -/
def namelessStanza : List Char :=
  ("Depends: foo").data

/-- The description-continuation stanza of claim C6. -/
def descStanza : List Char :=
  ("Description: short\n more text\n continued").data

/-! ## Basic lemmas about the splitters and list helpers -/

theorem take_len_append (l₁ l₂ : List α) : (l₁ ++ l₂).take l₁.length = l₁ := by
  induction l₁ with
  | nil => rfl
  | cons a l ih => simp [ih]

theorem drop_len_append (l₁ l₂ : List α) : (l₁ ++ l₂).drop l₁.length = l₂ := by
  induction l₁ with
  | nil => rfl
  | cons a l ih => simp [ih]

theorem dropWhile_append_of_all (p : Char → Bool) (ws r : List Char)
    (h : ∀ x ∈ ws, p x = true) : (ws ++ r).dropWhile p = r.dropWhile p := by
  induction ws with
  | nil => rfl
  | cons a l ih =>
    have ha : p a = true := h a (List.mem_cons_self a l)
    simp only [List.cons_append, List.dropWhile_cons, ha, if_true]
    exact ih fun x hx => h x (List.mem_cons_of_mem a hx)

theorem splitSpacesL_ne_nil (s : List Char) : splitSpacesL s ≠ [] := by
  cases s with
  | nil => simp [splitSpacesL]
  | cons c rest =>
    by_cases hc : c = ' '
    · simp [splitSpacesL, hc]
    · simp only [splitSpacesL, if_neg hc]
      cases splitSpacesL rest <;> simp

theorem mem_dedupKeep (x : List Char) :
    ∀ (l seen : List (List Char)), (x ∈ dedupKeep seen l ↔ x ∈ l ∧ x ∉ seen)
  | [], seen => by simp [dedupKeep]
  | y :: ys, seen => by
    by_cases hy : y ∈ seen
    · rw [dedupKeep, if_pos hy, mem_dedupKeep x ys seen]
      constructor
      · rintro ⟨h1, h2⟩; exact ⟨List.mem_cons_of_mem y h1, h2⟩
      · rintro ⟨h1, h2⟩
        rcases List.mem_cons.mp h1 with h | h
        · exact absurd (h ▸ hy) h2
        · exact ⟨h, h2⟩
    · rw [dedupKeep, if_neg hy]
      constructor
      · intro h
        rcases List.mem_cons.mp h with h | h
        · exact ⟨h ▸ List.mem_cons_self y ys, h ▸ hy⟩
        · rcases (mem_dedupKeep x ys (y :: seen)).mp h with ⟨h1, h2⟩
          exact ⟨List.mem_cons_of_mem y h1,
            fun hs => h2 (List.mem_cons_of_mem y hs)⟩
      · rintro ⟨h1, h2⟩
        rcases List.mem_cons.mp h1 with h | h
        · exact h ▸ List.mem_cons_self y (dedupKeep (y :: seen) ys)
        · by_cases hxy : x = y
          · exact hxy ▸ List.mem_cons_self y (dedupKeep (y :: seen) ys)
          · refine List.mem_cons_of_mem y ((mem_dedupKeep x ys (y :: seen)).mpr ⟨h, ?_⟩)
            intro hs
            rcases List.mem_cons.mp hs with h' | h'
            · exact hxy h'
            · exact h2 h'

theorem matchField_ne_nil {pfx l v : List Char} (h : matchField pfx l = some v) :
    v ≠ [] := by
  unfold matchField at h
  split at h
  · dsimp only at h
    split at h
    · split at h
      · cases h; simp
      · cases h
    · cases h
      exact fun hn => absurd hn (by assumption)
  · cases h

theorem getNameFrom_ne_nil : ∀ {lines : List (List Char)} {v : List Char},
    getNameFrom lines = some v → v ≠ [] := by
  intro lines
  induction lines with
  | nil => intro v h; cases h
  | cons line rest ih =>
    intro v h
    rw [getNameFrom] at h
    cases hm : matchField pkgPfx line with
    | some w => rw [hm] at h; cases h; exact matchField_ne_nil hm
    | none => rw [hm] at h; exact ih h

theorem stanzaName_ne_nil {p v : List Char} (h : stanzaName p = some v) : v ≠ [] :=
  getNameFrom_ne_nil h

theorem joinWithSpace_cons (c : Char) (h : List Char) (t : List (List Char)) :
    joinWithSpace ((c :: h) :: t) = c :: joinWithSpace (h :: t) := by
  cases t <;> simp [joinWithSpace]

theorem joinWithSpace_splitSpacesL : ∀ s : List Char,
    joinWithSpace (splitSpacesL s) = s
  | [] => rfl
  | c :: rest => by
    have ih := joinWithSpace_splitSpacesL rest
    by_cases hc : c = ' '
    · subst hc
      rw [splitSpacesL, if_pos rfl]
      obtain ⟨h, t, hS⟩ := List.exists_cons_of_ne_nil (splitSpacesL_ne_nil rest)
      rw [hS] at ih ⊢
      simp [joinWithSpace, ih]
    · rw [splitSpacesL, if_neg hc]
      obtain ⟨h, t, hS⟩ := List.exists_cons_of_ne_nil (splitSpacesL_ne_nil rest)
      rw [hS] at ih ⊢
      rw [joinWithSpace_cons, ih]

theorem space_not_mem_splitSpacesL : ∀ (s t : List Char),
    t ∈ splitSpacesL s → ' ' ∉ t
  | [], t => by
    intro h
    simp only [splitSpacesL, List.mem_singleton] at h
    simp [h]
  | c :: rest, t => by
    intro h
    by_cases hc : c = ' '
    · subst hc
      rw [splitSpacesL, if_pos rfl] at h
      rcases List.mem_cons.mp h with h | h
      · simp [h]
      · exact space_not_mem_splitSpacesL rest t h
    · rw [splitSpacesL, if_neg hc] at h
      obtain ⟨h0, t0, hS⟩ := List.exists_cons_of_ne_nil (splitSpacesL_ne_nil rest)
      rw [hS] at h
      rcases List.mem_cons.mp h with h | h
      · subst h
        intro hmem
        rcases List.mem_cons.mp hmem with h' | h'
        · exact hc h'.symm
        · exact space_not_mem_splitSpacesL rest h0 (hS ▸ List.mem_cons_self h0 t0) h'
      · exact space_not_mem_splitSpacesL rest t (hS ▸ List.mem_cons_of_mem h0 h)

theorem splitSpacesL_space (rest : List Char) :
    splitSpacesL (' ' :: rest) = [] :: splitSpacesL rest := by
  simp [splitSpacesL]

theorem splitSpacesL_cons_ne {c : Char} {rest h0 : List Char} {t0 : List (List Char)}
    (hc : c ≠ ' ') (hS : splitSpacesL rest = h0 :: t0) :
    splitSpacesL (c :: rest) = (c :: h0) :: t0 := by
  rw [splitSpacesL, if_neg hc, hS]

theorem nil_mem_splitSpacesL : ∀ s : List Char,
    ([] ∈ splitSpacesL s ↔ emptyTokenCond s = true)
  | [] => by simp [splitSpacesL, emptyTokenCond]
  | [c] => by
    by_cases hc : c = ' '
    · subst hc
      simp [splitSpacesL_space, splitSpacesL, emptyTokenCond, headIsSpace]
    · rw [splitSpacesL_cons_ne hc (show splitSpacesL [] = [] :: [] from rfl)]
      simp [emptyTokenCond, headIsSpace, endsWithSpace, hasAdjSpaces, hc]
  | c1 :: c2 :: rest => by
    have ih1 := nil_mem_splitSpacesL (c2 :: rest)
    have ih2 := nil_mem_splitSpacesL rest
    by_cases h1 : c1 = ' '
    · subst h1
      rw [splitSpacesL_space]
      simp [emptyTokenCond, headIsSpace]
    · by_cases h2 : c2 = ' '
      · subst h2
        rw [splitSpacesL_cons_ne h1 (splitSpacesL_space rest)]
        cases rest with
        | nil =>
          simp [splitSpacesL, emptyTokenCond, headIsSpace, endsWithSpace,
            hasAdjSpaces, h1]
        | cons r rs =>
          rw [List.mem_cons] at *
          simp only [show (([] : List Char) = [c1]) = False by simp, false_or]
          rw [ih2]
          simp only [emptyTokenCond, headIsSpace, endsWithSpace, hasAdjSpaces,
            List.isEmpty_cons, h1]
          cases hr : (r == ' ') <;> cases hadj : hasAdjSpaces (r :: rs) <;>
            cases hend : endsWithSpace (r :: rs) <;> simp_all
      · obtain ⟨h0, t0, hS⟩ := List.exists_cons_of_ne_nil (splitSpacesL_ne_nil rest)
        have hS1 : splitSpacesL (c2 :: rest) = (c2 :: h0) :: t0 :=
          splitSpacesL_cons_ne h2 hS
        rw [splitSpacesL_cons_ne h1 hS1]
        rw [hS1] at ih1
        rw [List.mem_cons] at ih1 ⊢
        simp only [show (([] : List Char) = c1 :: c2 :: h0) = False by simp,
          show (([] : List Char) = c2 :: h0) = False by simp, false_or] at ih1 ⊢
        rw [ih1]
        simp [emptyTokenCond, headIsSpace, endsWithSpace, hasAdjSpaces, h1, h2]

/-! ## Lemmas about the scanning loop of getInfoFor -/

theorem scanStep_allNames (q : List Char) (st : ScanState) (p : List Char) :
    (scanStep q st p).allPackageNames = st.allPackageNames ++ [stanzaName p] := by
  by_cases hn : getNameFrom (splitLinesL p) = some q <;>
    by_cases hd : isDependentOn q (splitLinesL p) <;>
      simp [scanStep, stanzaName, hn, hd]

theorem scanStep_dependents (q : List Char) (st : ScanState) (p : List Char) :
    (scanStep q st p).dependents
      = st.dependents ++ (if isDepStanza q p then [stanzaName p] else []) := by
  by_cases hn : getNameFrom (splitLinesL p) = some q <;>
    by_cases hd : isDependentOn q (splitLinesL p) <;>
      simp [scanStep, isDepStanza, stanzaName, hn, hd]

theorem scanStep_fields_of_ne (q : List Char) (st : ScanState) (p : List Char)
    (h : stanzaName p ≠ some q) :
    (scanStep q st p).summary = st.summary
    ∧ (scanStep q st p).description = st.description
    ∧ (scanStep q st p).dependenciesTemp = st.dependenciesTemp := by
  have h' : getNameFrom (splitLinesL p) ≠ some q := h
  by_cases hd : isDependentOn q (splitLinesL p) <;>
    simp [scanStep, h', hd]

theorem scanStep_fields_of_eq (q : List Char) (st : ScanState) (p : List Char)
    (h : stanzaName p = some q) :
    (scanStep q st p).summary = getSummaryFrom (splitLinesL p)
    ∧ (scanStep q st p).description = getDescriptionFrom (splitLinesL p)
    ∧ (scanStep q st p).dependenciesTemp = getDependenciesFrom (splitLinesL p) := by
  have h' : getNameFrom (splitLinesL p) = some q := h
  simp [scanStep, h']

theorem scan_allNames (q : List Char) : ∀ (l : List (List Char)) (st : ScanState),
    ((l.foldl (scanStep q) st).allPackageNames) = st.allPackageNames ++ l.map stanzaName
  | [], st => by simp
  | p :: rest, st => by
    rw [List.foldl_cons, scan_allNames q rest, scanStep_allNames]
    simp

theorem scan_dependents (q : List Char) : ∀ (l : List (List Char)) (st : ScanState),
    ((l.foldl (scanStep q) st).dependents)
      = st.dependents ++ (l.filter (isDepStanza q)).map stanzaName
  | [], st => by simp
  | p :: rest, st => by
    rw [List.foldl_cons, scan_dependents q rest, scanStep_dependents]
    by_cases h : isDepStanza q p <;> simp [h, List.filter_cons]

theorem scan_depTemp (q : List Char) : ∀ (l : List (List Char)) (st : ScanState),
    ((l.foldl (scanStep q) st).dependenciesTemp)
      = l.foldl (fun acc p => if stanzaName p = some q
          then getDependenciesFrom (splitLinesL p) else acc) st.dependenciesTemp
  | [], st => by simp
  | p :: rest, st => by
    rw [List.foldl_cons, List.foldl_cons, scan_depTemp q rest]
    by_cases h : stanzaName p = some q
    · rw [(scanStep_fields_of_eq q st p h).2.2, if_pos h]
    · rw [(scanStep_fields_of_ne q st p h).2.2, if_neg h]

theorem scan_fields_nomatch (q : List Char) : ∀ (l : List (List Char)) (st : ScanState),
    (∀ p ∈ l, stanzaName p ≠ some q) →
    (l.foldl (scanStep q) st).summary = st.summary
    ∧ (l.foldl (scanStep q) st).description = st.description
    ∧ (l.foldl (scanStep q) st).dependenciesTemp = st.dependenciesTemp
  | [], st, _ => by simp
  | p :: rest, st, h => by
    have hp := h p (List.mem_cons_self p rest)
    have hrest : ∀ x ∈ rest, stanzaName x ≠ some q :=
      fun x hx => h x (List.mem_cons_of_mem p hx)
    have ih := scan_fields_nomatch q rest (scanStep q st p) hrest
    have hf := scanStep_fields_of_ne q st p hp
    rw [List.foldl_cons]
    exact ⟨ih.1.trans hf.1, ih.2.1.trans hf.2.1, ih.2.2.trans hf.2.2⟩

theorem scan_fields_decomp (q sLast : List Char) (pre post : List (List Char))
    (hname : stanzaName sLast = some q) (hpost : ∀ p ∈ post, stanzaName p ≠ some q)
    (st : ScanState) :
    (((pre ++ sLast :: post).foldl (scanStep q) st).summary)
        = getSummaryFrom (splitLinesL sLast)
    ∧ (((pre ++ sLast :: post).foldl (scanStep q) st).description)
        = getDescriptionFrom (splitLinesL sLast)
    ∧ (((pre ++ sLast :: post).foldl (scanStep q) st).dependenciesTemp)
        = getDependenciesFrom (splitLinesL sLast) := by
  rw [List.foldl_append, List.foldl_cons]
  have ih := scan_fields_nomatch q post (scanStep q (pre.foldl (scanStep q) st) sLast) hpost
  have hf := scanStep_fields_of_eq q (pre.foldl (scanStep q) st) sLast hname
  exact ⟨ih.1.trans hf.1, ih.2.1.trans hf.2.1, ih.2.2.trans hf.2.2⟩

/-! ## Characterizations of getInfoFor -/

theorem getInfoFor_dependents (f q : List Char) :
    (getInfoFor f q).dependents = dependentsOf f q := by
  show ((splitParasL f).foldl (scanStep q) initState).dependents = _
  rw [scan_dependents]
  simp [initState, dependentsOf]

theorem getInfoFor_depends (f q : List Char) :
    (getInfoFor f q).depends = findDependenciesFor (targetDepsOf f q) (allNamesOf f) := by
  show findDependenciesFor ((splitParasL f).foldl (scanStep q) initState).dependenciesTemp
      ((splitParasL f).foldl (scanStep q) initState).allPackageNames = _
  rw [scan_depTemp, scan_allNames]
  simp [initState, targetDepsOf, allNamesOf]

theorem targetDepsOf_eq_scan (f q : List Char) :
    ((splitParasL f).foldl (scanStep q) initState).dependenciesTemp = targetDepsOf f q := by
  rw [scan_depTemp]; rfl

theorem matchField_of_ws (pfx ws v : List Char) (c : Char)
    (hws : ∀ x ∈ ws, isFieldWS x = true) (hc : isFieldWS c = false) :
    matchField pfx (pfx ++ (ws ++ c :: v)) = some (c :: v) := by
  unfold matchField
  rw [take_len_append, if_pos rfl, drop_len_append]
  dsimp only
  rw [dropWhile_append_of_all isFieldWS ws (c :: v) hws]
  simp [List.dropWhile_cons, hc]

/-! ## Claim theorems -/

/-- C1: for every file text and queried name, the detail result's depends
list is obtained by deduplicating the target's dependency token sequence
(divider tokens included) while preserving first-occurrence order, mapping
each remaining token t to {name := t, found := b}; and for every token t of
the result, t.found is true iff t.name is the Package value extracted from
some stanza of the file. -/
theorem c1_dependency_resolution (f q : List Char) :
    (getInfoFor f q).depends
      = (dedupKeep [] (dependencyTokensOf f q)).map
          (fun t => { name := t, found := (allNamesOf f).contains (some t) })
    ∧ ∀ t ∈ (getInfoFor f q).depends,
        (t.found = true ↔ ∃ p ∈ splitParasL f, stanzaName p = some t.name) := by
  have h1 : (getInfoFor f q).depends
      = (dedupKeep [] (dependencyTokensOf f q)).map
          (fun t => { name := t, found := (allNamesOf f).contains (some t) }) := by
    rw [getInfoFor_depends]
    unfold findDependenciesFor dependencyTokensOf
    by_cases h : targetDepsOf f q = []
    · simp [h, dedupKeep]
    · simp [h]
  refine ⟨h1, ?_⟩
  intro t ht
  rw [h1] at ht
  obtain ⟨tok, _, rfl⟩ := List.mem_map.mp ht
  simp only
  constructor
  · intro hfound
    have hmem : some tok ∈ allNamesOf f := by simpa using hfound
    exact List.mem_map.mp hmem
  · intro hex
    have hmem : some tok ∈ allNamesOf f := List.mem_map.mpr hex
    simpa using hmem

/-- Witness for C1: instantiated at the specification's scenario file for
the query alpha and its token beta, whose found flag is true. -/
theorem c1_witness : (⟨("beta").data, true⟩ : DependencyObject).found = true :=
  ((c1_dependency_resolution specScenarioFile ("alpha").data).2
      ⟨("beta").data, true⟩ (by decide)).mpr
    ⟨specStanzaBeta, by decide, by decide⟩

/-- C2 counterexample: in `shadowedFile` the claim's hypotheses hold — the
first stanza is named A with dependency token B, a stanza named B exists,
and A differs from B — yet the detail query for A does not contain
{name := B, found := true} in depends, because the last stanza named A
(which has no Depends line) determines the captured dependency string. -/
theorem c2_counterexample :
    shadowedStanzaA ∈ splitParasL shadowedFile
    ∧ stanzaName shadowedStanzaA = some ("A").data
    ∧ isDependentOn ("B").data (splitLinesL shadowedStanzaA) = true
    ∧ ("Package: B").data ∈ splitParasL shadowedFile
    ∧ stanzaName (("Package: B").data) = some ("B").data
    ∧ ("A").data ≠ ("B").data
    ∧ (⟨("B").data, true⟩ : DependencyObject) ∉ (getInfoFor shadowedFile ("A").data).depends := by
  exact ⟨by decide, by decide, by decide, by decide, by decide, by decide, by decide⟩

/-- C2 (amended): for every file containing a stanza A whose dependency
tokens include name B and a stanza whose Package value is B (A distinct
from B), the detail query for B includes A's name in dependents
(unconditionally — A may even be shadowed by a later stanza of the same
name); and, provided no stanza after A shares A's Package value (A is the
last stanza of its name), the detail query for A includes
{name := B, found := true} in depends. A stanza is listed in dependents iff
it is not the target stanza — formally, in the code, its extracted Package
value differs from the queried name — and its flat dependency token list
contains the queried name as an element. -/
theorem c2_reverse_dependency (f a b sA : List Char)
    (hmemA : sA ∈ splitParasL f)
    (hAname : stanzaName sA = some a)
    (hAdep : isDependentOn b (splitLinesL sA) = true)
    (hB : ∃ p ∈ splitParasL f, stanzaName p = some b)
    (hab : a ≠ b) :
    some a ∈ (getInfoFor f b).dependents
    ∧ (∀ pre post, splitParasL f = pre ++ sA :: post →
        (∀ p ∈ post, stanzaName p ≠ some a) →
        (⟨b, true⟩ : DependencyObject) ∈ (getInfoFor f a).depends)
    ∧ (getInfoFor f b).dependents
        = ((splitParasL f).filter (isDepStanza b)).map stanzaName := by
  refine ⟨?_, ?_, (getInfoFor_dependents f b).trans rfl⟩
  · rw [getInfoFor_dependents, dependentsOf]
    refine List.mem_map.mpr ⟨sA, List.mem_filter.mpr ⟨hmemA, ?_⟩, hAname⟩
    simp [isDepStanza, hAname, hAdep, hab]
  · intro pre post hsplit hApost
    have hd : targetDepsOf f a = getDependenciesFrom (splitLinesL sA) := by
      have h2 : ((splitParasL f).foldl (scanStep a) initState).dependenciesTemp
          = getDependenciesFrom (splitLinesL sA) := by
        rw [hsplit]
        exact (scan_fields_decomp a sA pre post hAname hApost initState).2.2
      exact (targetDepsOf_eq_scan f a).symm.trans h2
    have hbne : b ≠ [] := by
      obtain ⟨p, _, hpn⟩ := hB
      exact stanzaName_ne_nil hpn
    have htok : b ∈ splitSpacesL (targetDepsOf f a) := by
      rw [hd]
      simpa [isDependentOn] using hAdep
    have hne : targetDepsOf f a ≠ [] := by
      intro h0
      rw [h0] at htok
      simp only [splitSpacesL, List.mem_singleton] at htok
      exact hbne htok
    rw [getInfoFor_depends]
    unfold findDependenciesFor
    rw [if_neg hne]
    have hfound : (allNamesOf f).contains (some b) = true := by
      obtain ⟨p, hp, hpn⟩ := hB
      have hmem : some b ∈ allNamesOf f := List.mem_map.mpr ⟨p, hp, hpn⟩
      simpa using hmem
    refine List.mem_map.mpr ⟨b, (mem_dedupKeep b _ []).mpr ⟨htok, by simp⟩, ?_⟩
    simp only [DependencyObject.mk.injEq]
    exact ⟨by trivial, by simpa using hfound⟩

/-- Witness for C2 (amended): at the specification's scenario file, stanza
alpha depends on beta, so beta's dependents contain alpha and (alpha being
the last stanza of its name) alpha's depends contain
{name := beta, found := true}; and at `shadowedFile`, where the first A
stanza is shadowed by a later stanza of the same name, the query for B
still lists A among the dependents. -/
theorem c2_witness :
    some ("alpha").data ∈ (getInfoFor specScenarioFile ("beta").data).dependents
    ∧ (⟨("beta").data, true⟩ : DependencyObject)
        ∈ (getInfoFor specScenarioFile ("alpha").data).depends
    ∧ some ("A").data ∈ (getInfoFor shadowedFile ("B").data).dependents := by
  have h := c2_reverse_dependency specScenarioFile ("alpha").data ("beta").data
    specStanzaAlpha (by decide) (by decide) (by decide)
    ⟨specStanzaBeta, by decide, by decide⟩ (by decide)
  have h2 := c2_reverse_dependency shadowedFile ("A").data ("B").data
    shadowedStanzaA (by decide) (by decide) (by decide)
    ⟨("Package: B").data, by decide, by decide⟩ (by decide)
  exact ⟨h.1, h.2.1 [] [specStanzaBeta] (by decide) (by decide), h2.1⟩

/-- C3: when the file contains two or more stanzas whose extracted Package
value equals the queried name, the captured summary, description and
dependency resolution come from the last such stanza in file order, while
the scan still processes every stanza, so dependents are collected from all
stanzas (those before and after the last match alike). -/
theorem c3_last_match_wins (f q sLast s0 : List Char) (pre post : List (List Char))
    (hsplit : splitParasL f = pre ++ sLast :: post)
    (hname : stanzaName sLast = some q)
    (_hdup : s0 ∈ pre) (_hdupname : stanzaName s0 = some q)
    (hpost : ∀ p ∈ post, stanzaName p ≠ some q) :
    (getInfoFor f q).summary = getSummaryFrom (splitLinesL sLast)
    ∧ (getInfoFor f q).description = getDescriptionFrom (splitLinesL sLast)
    ∧ (getInfoFor f q).depends
        = findDependenciesFor (getDependenciesFrom (splitLinesL sLast)) (allNamesOf f)
    ∧ (getInfoFor f q).dependents
        = ((splitParasL f).filter (isDepStanza q)).map stanzaName := by
  have hdec := scan_fields_decomp q sLast pre post hname hpost initState
  refine ⟨?_, ?_, ?_, (getInfoFor_dependents f q).trans rfl⟩
  · show ((splitParasL f).foldl (scanStep q) initState).summary = _
    rw [hsplit]
    exact hdec.1
  · show ((splitParasL f).foldl (scanStep q) initState).description = _
    rw [hsplit]
    exact hdec.2.1
  · rw [getInfoFor_depends]
    have hd : targetDepsOf f q = getDependenciesFrom (splitLinesL sLast) := by
      refine (targetDepsOf_eq_scan f q).symm.trans ?_
      rw [hsplit]
      exact hdec.2.2
    rw [hd]

/-- Witness for C3 at `dupFile`: the query dup captures the fields of the
third stanza (the last one named dup), and the middle stanza is collected
as a dependent. -/
theorem c3_witness :
    (getInfoFor dupFile ("dup").data).summary = getSummaryFrom (splitLinesL dupStanza3)
    ∧ (getInfoFor dupFile ("dup").data).description
        = getDescriptionFrom (splitLinesL dupStanza3)
    ∧ (getInfoFor dupFile ("dup").data).depends
        = findDependenciesFor (getDependenciesFrom (splitLinesL dupStanza3))
            (allNamesOf dupFile)
    ∧ (getInfoFor dupFile ("dup").data).dependents
        = ((splitParasL dupFile).filter (isDepStanza ("dup").data)).map stanzaName :=
  c3_last_match_wins dupFile ("dup").data dupStanza3 dupStanza1
    [dupStanza1, dupStanza2] [] (by decide) (by decide) (by decide) (by decide)
    (by decide)

/-- C4: a query for a name that is not the Package value of any stanza
never fails — it returns summary "", description "", an empty depends list,
and dependents equal to the names of the stanzas whose dependency tokens
include the queried name (possibly empty). -/
theorem c4_unknown_name (f q : List Char)
    (h : ∀ p ∈ splitParasL f, stanzaName p ≠ some q) :
    (getInfoFor f q).summary = some []
    ∧ (getInfoFor f q).description = []
    ∧ (getInfoFor f q).depends = []
    ∧ (getInfoFor f q).dependents
        = ((splitParasL f).filter
            (fun p => isDependentOn q (splitLinesL p))).map stanzaName := by
  have hfields := scan_fields_nomatch q (splitParasL f) initState h
  refine ⟨?_, ?_, ?_, ?_⟩
  · show ((splitParasL f).foldl (scanStep q) initState).summary = some []
    rw [hfields.1]
    rfl
  · show ((splitParasL f).foldl (scanStep q) initState).description = []
    rw [hfields.2.1]
    rfl
  · show findDependenciesFor
        ((splitParasL f).foldl (scanStep q) initState).dependenciesTemp
        ((splitParasL f).foldl (scanStep q) initState).allPackageNames = []
    rw [hfields.2.2]
    simp [findDependenciesFor, initState]
  · rw [getInfoFor_dependents, dependentsOf]
    refine congrArg (List.map stanzaName) (List.filter_congr ?_)
    intro p hp
    simp [isDepStanza, h p hp]

/-- Witness for C4: querying the absent name zeta in the specification's
scenario file. -/
theorem c4_witness :
    (getInfoFor specScenarioFile ("zeta").data).summary = some []
    ∧ (getInfoFor specScenarioFile ("zeta").data).description = []
    ∧ (getInfoFor specScenarioFile ("zeta").data).depends = []
    ∧ (getInfoFor specScenarioFile ("zeta").data).dependents
        = ((splitParasL specScenarioFile).filter
            (fun p => isDependentOn ("zeta").data (splitLinesL p))).map stanzaName :=
  c4_unknown_name specScenarioFile ("zeta").data (by decide)

/-- C5 counterexample: the raw Depends value "a , b" (comma surrounded by
spaces) leaves two adjacent spaces after comma removal; the split does not
discard the resulting empty token, so the token sequence — and the depends
result in `emptyTokFile` — contains an empty-string token, contradicting
the claim that empty tokens are discarded. -/
theorem c5_counterexample :
    [] ∈ splitSpacesL (parseDependencyString ("a , b").data)
    ∧ (⟨[], false⟩ : DependencyObject) ∈ (getInfoFor emptyTokFile ("p").data).depends :=
  ⟨by decide, by decide⟩

/-- C5 (amended): the token sequence is produced by, in order, (1) removing
version-constraint substrings, (2) removing commas, (3) splitting on single
spaces with empty tokens retained: the split is lossless (rejoining the
tokens with single spaces restores the transformed string and no token
contains a space), and the token sequence contains an empty-string token
exactly when the transformed string is empty, begins with a space, ends
with a space, or contains two adjacent spaces. -/
theorem c5_tokenizer_empty_tokens (d : List Char) :
    parseDependencyString d = removeCommas (stripVersions d)
    ∧ joinWithSpace (splitSpacesL (parseDependencyString d)) = parseDependencyString d
    ∧ (splitSpacesL (parseDependencyString d)).all (fun t => !(t.contains ' ')) = true
    ∧ ([] ∈ splitSpacesL (parseDependencyString d)
        ↔ emptyTokenCond (parseDependencyString d) = true) := by
  refine ⟨rfl, joinWithSpace_splitSpacesL _, ?_, nil_mem_splitSpacesL _⟩
  rw [List.all_eq_true]
  intro t ht
  have hsp := space_not_mem_splitSpacesL _ t ht
  simpa using hsp

/-- C6 counterexample: the stanza lines "Description: short", " more text",
" continued" do not yield the description "more textcontinued" claimed by
the specification — the captured continuation lines keep their leading
space. -/
theorem c6_counterexample :
    getDescriptionFrom (splitLinesL descStanza) ≠ ("more textcontinued").data := by
  decide

/-- C6 (amended): the stanza lines "Description: short", " more text",
" continued" yield summary "short" and description "more text continued":
continuation lines are captured verbatim (their leading whitespace
included), concatenated with no inserted separator, then trimmed of
surrounding whitespace, so the interior leading spaces remain. -/
theorem c6_description_concat :
    getSummaryFrom (splitLinesL descStanza) = some (("short").data)
    ∧ getDescriptionFrom (splitLinesL descStanza) = ("more text continued").data :=
  ⟨by decide, by decide⟩

/-- C7: evaluation at the failing input. The claim (and the code's own
comment) says trailing horizontal whitespace is removed from a field value,
but the greedy capture keeps it: the line "Package: vim " yields the value
"vim " with its trailing space, while leading whitespace is removed. -/
theorem c7_trailing_whitespace_kept :
    getNameFrom [("Package: vim ").data] = some (("vim ").data)
    ∧ matchField pkgPfx (("Package: \tvim").data) = some (("vim").data)
    ∧ getNameFrom [("Package: vim ").data] ≠ some (("vim").data) :=
  ⟨by decide, by decide, by decide⟩

/-- C8: the name-list query returns exactly the captures of the lines
matching the Package field pattern, in file order, with no sorting and no
deduplication: it equals the filterMap of the field matcher over the
file's lines, and its length is the number of matching lines. -/
theorem c8_name_list (f : List Char) :
    getPackageNames f = (splitLinesL f).filterMap (matchField pkgPfx)
    ∧ (getPackageNames f).length
        = ((splitLinesL f).filter (fun l => (matchField pkgPfx l).isSome)).length := by
  have key : ∀ (l : List (List Char)) (acc : List (List Char)),
      (l.foldl (fun names line =>
        match matchField pkgPfx line with
        | some v => names ++ [v]
        | none => names) acc)
        = acc ++ l.filterMap (matchField pkgPfx) := by
    intro l
    induction l with
    | nil => intro acc; simp
    | cons a t ih =>
      intro acc
      cases h : matchField pkgPfx a <;>
        simp [List.foldl_cons, List.filterMap_cons, h, ih]
  have h1 : getPackageNames f = (splitLinesL f).filterMap (matchField pkgPfx) := by
    unfold getPackageNames
    rw [key]
    simp
  refine ⟨h1, ?_⟩
  rw [h1]
  have len : ∀ l : List (List Char),
      (l.filterMap (matchField pkgPfx)).length
        = (l.filter (fun x => (matchField pkgPfx x).isSome)).length := by
    intro l
    induction l with
    | nil => rfl
    | cons a t ih =>
      cases h : matchField pkgPfx a <;>
        simp [List.filterMap_cons, h, List.filter_cons, ih]
  exact len _

/-- C9: the field-line character class between the colon and the captured
value matches space, tab or pipe, so pipe characters sitting between the
colon and the value are stripped from the extracted value, for the
Package, Description and Depends patterns alike. -/
theorem c9_pipe_in_field_class (ws v : List Char) (c : Char)
    (hws : ∀ x ∈ ws, isFieldWS x = true) (_hpipe : '|' ∈ ws)
    (hc : isFieldWS c = false) :
    matchField pkgPfx (pkgPfx ++ (ws ++ c :: v)) = some (c :: v)
    ∧ matchField descPfx (descPfx ++ (ws ++ c :: v)) = some (c :: v)
    ∧ matchField depPfx (depPfx ++ (ws ++ c :: v)) = some (c :: v) :=
  ⟨matchField_of_ws _ _ _ _ hws hc, matchField_of_ws _ _ _ _ hws hc,
    matchField_of_ws _ _ _ _ hws hc⟩

/-- Witness for C9 at the line "Package:|foo" (and its Description and
Depends counterparts): the pipe is stripped and the value is foo. -/
theorem c9_witness :
    matchField pkgPfx (pkgPfx ++ (['|'] ++ 'f' :: ("oo").data)) = some ('f' :: ("oo").data)
    ∧ matchField descPfx (descPfx ++ (['|'] ++ 'f' :: ("oo").data)) = some ('f' :: ("oo").data)
    ∧ matchField depPfx (depPfx ++ (['|'] ++ 'f' :: ("oo").data)) = some ('f' :: ("oo").data) :=
  c9_pipe_in_field_class ['|'] ("oo").data 'f' (by decide) (by decide) (by decide)

/-- C10: a stanza with no Package line whose dependency tokens include the
queried name contributes its absent (undefined) name to the dependents
list, and that absent value also enters the full name list used for
resolution. -/
theorem c10_nameless_stanza (f q s : List Char) (pre post : List (List Char))
    (hsplit : splitParasL f = pre ++ s :: post)
    (hnoname : stanzaName s = none)
    (hdep : isDependentOn q (splitLinesL s) = true) :
    none ∈ (getInfoFor f q).dependents ∧ none ∈ allNamesOf f := by
  have hmem : s ∈ splitParasL f := by
    rw [hsplit]
    exact List.mem_append_right _ (List.mem_cons_self _ _)
  constructor
  · rw [getInfoFor_dependents, dependentsOf]
    exact List.mem_map.mpr
      ⟨s, List.mem_filter.mpr ⟨hmem, by simp [isDepStanza, hnoname, hdep]⟩, hnoname⟩
  · exact List.mem_map.mpr ⟨s, hmem, hnoname⟩

/-- Witness for C10 at `namelessFile`: its first stanza has no Package line
and depends on foo, so the query for foo lists the undefined name among
the dependents. -/
theorem c10_witness :
    none ∈ (getInfoFor namelessFile ("foo").data).dependents
    ∧ none ∈ allNamesOf namelessFile :=
  c10_nameless_stanza namelessFile ("foo").data namelessStanza []
    [("Package: foo").data] (by decide) (by decide) (by decide)

end PkgReader
